import Mathlib

/-!
Verification of the Document Pagination & Highlight Reconciliation Engine
of the clarity-app repository (`src/components/DocumentViewer.tsx`).

Strings are modelled as `List Char` (JavaScript string indices coincide with
list positions for the BMP characters appearing here).  The functions below
are direct shallow embeddings of `findSnippetIndex`, the `pages` memo
(marker-based and fallback pagination) and `renderPageContent`; visual
styling (CSS class strings, click handlers) is not modelled, only the
emitted text structure.
-/

namespace Clarity

/-- JavaScript `/\s/` whitespace class (`WhiteSpace` plus line terminators),
used by `snippet.replace(/\s+/g, '')`, `/\s/.test(char)` and `trim()`. -/
def isWs (c : Char) : Bool :=
  decide (c.toNat = 9 ∨ c.toNat = 10 ∨ c.toNat = 11 ∨ c.toNat = 12 ∨ c.toNat = 13 ∨
    c.toNat = 32 ∨ c.toNat = 160 ∨ c.toNat = 5760 ∨
    (8192 ≤ c.toNat ∧ c.toNat ≤ 8202) ∨
    c.toNat = 8232 ∨ c.toNat = 8233 ∨ c.toNat = 8239 ∨ c.toNat = 8287 ∨
    c.toNat = 12288 ∨ c.toNat = 65279)

/-- `snippet.replace(/\s+/g, '')`: remove every whitespace character. -/
def compact (s : List Char) : List Char := s.filter (fun c => !(isWs c))

/-- JavaScript `content.indexOf(snippet)`: position of the first exact
occurrence, `none` when the snippet does not occur. -/
def indexOfFrom : List Char → List Char → Option Nat
  | [], s => if s.isPrefixOf ([] : List Char) then some 0 else none
  | c :: cs, s =>
    if s.isPrefixOf (c :: cs) then some 0
    else (indexOfFrom cs s).map (· + 1)

/-- The character-by-character fuzzy scan of `findSnippetIndex`
(`DocumentViewer.tsx` lines 77-94).  `clean` is the compacted snippet, the
remaining arguments are the unscanned content suffix, the current absolute
position `i`, `snippetIdx`, and `startIdx` (`none` encodes `-1`). -/
def fuzzyAux (clean : List Char) : List Char → Nat → Nat → Option Nat → Option Nat
  | [], _, _, _ => none
  | c :: cs, i, sIdx, start =>
    if isWs c then fuzzyAux clean cs (i + 1) sIdx start
    else if clean.get? sIdx = some c then
      if sIdx + 1 = clean.length then (if sIdx = 0 then some i else start)
      else fuzzyAux clean cs (i + 1) (sIdx + 1) (if sIdx = 0 then some i else start)
    else
      if start.isSome then fuzzyAux clean cs (i + 1) 0 none
      else fuzzyAux clean cs (i + 1) sIdx start

/-- `findSnippetIndex(content, snippet)` (`DocumentViewer.tsx` lines 70-96):
exact `indexOf` fast path, then the whitespace-insensitive greedy scan;
`-1` means not found. -/
def findSnippetIndex (content snippet : List Char) : Int :=
  match indexOfFrom content snippet with
  | some i => (i : Int)
  | none =>
    let cleanSnippet := compact snippet
    if cleanSnippet = [] then -1
    else
      match fuzzyAux cleanSnippet content 0 0 none with
      | some j => (j : Int)
      | none => -1

example : findSnippetIndex "hello world".toList "lo wo".toList = 3 := by decide
example : findSnippetIndex "the fee is 10% monthly".toList "fee is 10%  monthly".toList = 4 := by
  decide
example : findSnippetIndex "aab".toList "a b".toList = -1 := by decide
example : findSnippetIndex " abc".toList "abc".toList = 1 := by decide
example : findSnippetIndex "cab".toList "a b".toList = 1 := by decide

/-! ### Correctness of the exact-match path (`indexOf`) -/

theorem indexOfFrom_some {content snippet : List Char} {n : Nat}
    (h : indexOfFrom content snippet = some n) :
    snippet.isPrefixOf (content.drop n) = true ∧
      ∀ m < n, snippet.isPrefixOf (content.drop m) = false := by
  induction content generalizing n with
  | nil =>
    unfold indexOfFrom at h
    split at h
    · rename_i hp
      cases h
      exact ⟨hp, by omega⟩
    · cases h
  | cons c cs ih =>
    unfold indexOfFrom at h
    split at h
    · rename_i hp
      cases h
      exact ⟨hp, by omega⟩
    · rename_i hp
      rcases Option.map_eq_some'.mp h with ⟨k, hk, rfl⟩
      rcases ih hk with ⟨h1, h2⟩
      refine ⟨h1, ?_⟩
      intro m hm
      cases m with
      | zero =>
        simpa using Bool.eq_false_iff.mpr hp
      | succ m' =>
        exact h2 m' (by omega)

theorem indexOfFrom_complete {content snippet : List Char} {n : Nat}
    (h : snippet.isPrefixOf (content.drop n) = true) :
    ∃ k, indexOfFrom content snippet = some k := by
  induction content generalizing n with
  | nil =>
    refine ⟨0, ?_⟩
    simp only [List.drop_nil] at h
    simp [indexOfFrom, h]
  | cons c cs ih =>
    by_cases hp : snippet.isPrefixOf (c :: cs) = true
    · exact ⟨0, by simp [indexOfFrom, hp]⟩
    · cases n with
      | zero => exact absurd h hp
      | succ n' =>
        simp only [List.drop_succ_cons] at h
        rcases ih h with ⟨k, hk⟩
        exact ⟨k + 1, by simp [indexOfFrom, hp, hk]⟩

/-- **C4.** When the snippet occurs verbatim in the content,
`findSnippetIndex` returns the offset of its first textual occurrence:
the snippet is a prefix of the content at the returned offset and at no
earlier offset. -/
theorem claim4_exact_first_occurrence (content snippet : List Char)
    (h : ∃ n, snippet.isPrefixOf (content.drop n) = true) :
    ∃ k : Nat, findSnippetIndex content snippet = (k : Int) ∧
      snippet.isPrefixOf (content.drop k) = true ∧
      ∀ m < k, snippet.isPrefixOf (content.drop m) = false := by
  rcases h with ⟨n, hn⟩
  rcases indexOfFrom_complete hn with ⟨k, hk⟩
  rcases indexOfFrom_some hk with ⟨h1, h2⟩
  exact ⟨k, by simp [findSnippetIndex, hk], h1, h2⟩

theorem claim4_witness :
    (∃ n, "ab".toList.isPrefixOf ("xabab".toList.drop n) = true) ∧
    ∃ k : Nat, findSnippetIndex "xabab".toList "ab".toList = (k : Int) ∧
      "ab".toList.isPrefixOf ("xabab".toList.drop k) = true ∧
      ∀ m < k, "ab".toList.isPrefixOf ("xabab".toList.drop m) = false :=
  ⟨⟨1, by decide⟩, claim4_exact_first_occurrence _ _ ⟨1, by decide⟩⟩

/-- **C10.** The empty snippet succeeds on the exact-match fast path at
offset 0 for every content; the empty-compacted-snippet failure rule is
reached only by non-empty all-whitespace snippets with no exact occurrence,
which yield `-1`. -/
theorem claim10_empty_snippet :
    (∀ content : List Char, findSnippetIndex content [] = 0) ∧
    ∀ content snippet : List Char, snippet ≠ [] →
      (∀ c ∈ snippet, isWs c = true) →
      indexOfFrom content snippet = none →
      findSnippetIndex content snippet = -1 := by
  constructor
  · intro content
    cases content <;> simp [findSnippetIndex, indexOfFrom, List.isPrefixOf]
  · intro content snippet hne hws hidx
    have hclean : compact snippet = [] := by
      simp only [compact, List.filter_eq_nil_iff]
      intro c hc
      simp [hws c hc]
    simp [findSnippetIndex, hidx, hclean]

theorem claim10_witness :
    findSnippetIndex "ab".toList [] = 0 ∧
    findSnippetIndex "ab".toList [' '] = -1 :=
  ⟨claim10_empty_snippet.1 "ab".toList,
   claim10_empty_snippet.2 "ab".toList [' '] (by decide) (by decide) (by decide)⟩

/-! ### The fuzzy path of `findSnippetIndex` -/

/-- A "full match of the compacted snippet" at position `p` of the content:
`p` holds a non-whitespace character and the non-whitespace characters of
the content from `p` onwards start with `clean`.  (This is the notion of
occurrence used by the spec's description of the fuzzy locator.) -/
def compactMatchAt (content clean : List Char) (p : Nat) : Bool :=
  match content.get? p with
  | some c => !(isWs c) && clean.isPrefixOf (compact (content.drop p))
  | none => false

/-- While the scan is inside a partial match (`sIdx` positions already
matched, candidate start recorded), and the rest of the compacted snippet
is laid out along the remaining content, the scan completes and returns
the recorded start (for `sIdx = 0` the current position becomes the start). -/
theorem fuzzyAux_hit (clean : List Char) :
    ∀ (cs : List Char) (i sIdx : Nat) (start : Option Nat),
      sIdx < clean.length →
      (clean.drop sIdx).isPrefixOf (compact cs) = true →
      (sIdx = 0 → ∃ c cs', cs = c :: cs' ∧ isWs c = false) →
      fuzzyAux clean cs i sIdx start = if sIdx = 0 then some i else start := by
  intro cs
  induction cs with
  | nil =>
    intro i sIdx start hlt hpre _
    exfalso
    have h1 : clean.drop sIdx <+: ([] : List Char) := by
      simpa [compact] using List.isPrefixOf_iff_prefix.mp hpre
    have h2 : clean.drop sIdx = [] := List.prefix_nil.mp h1
    have h3 := congrArg List.length h2
    simp only [List.length_drop, List.length_nil] at h3
    omega
  | cons c cs' ih =>
    intro i sIdx start hlt hpre hnz
    by_cases hws : isWs c = true
    · have hs0 : sIdx ≠ 0 := by
        intro h0
        rcases hnz h0 with ⟨d, ds, hcons, hdws⟩
        cases hcons
        rw [hws] at hdws
        cases hdws
      have hpre' : (clean.drop sIdx).isPrefixOf (compact cs') = true := by
        simpa [compact, hws] using hpre
      have hIh := ih (i + 1) sIdx start hlt hpre' (fun h0 => absurd h0 hs0)
      rw [if_neg hs0] at hIh ⊢
      simpa [fuzzyAux, hws] using hIh
    · have hwsf : isWs c = false := Bool.eq_false_iff.mpr hws
      have hcc : compact (c :: cs') = c :: compact cs' := by
        simp [compact, hwsf]
      have hdropcons : clean.drop sIdx = clean[sIdx] :: clean.drop (sIdx + 1) :=
        List.drop_eq_getElem_cons hlt
      have hpre' : clean[sIdx] :: clean.drop (sIdx + 1) <+: c :: compact cs' := by
        rw [← hdropcons, ← hcc]
        exact List.isPrefixOf_iff_prefix.mp hpre
      rcases List.cons_prefix_cons.mp hpre' with ⟨hheadEq, htail⟩
      have hget : clean.get? sIdx = some c := by
        rw [List.get?_eq_getElem?, List.getElem?_eq_getElem hlt, hheadEq]
      have hget' : clean[sIdx]? = some c := by
        rw [List.getElem?_eq_getElem hlt, hheadEq]
      by_cases hlast : sIdx + 1 = clean.length
      · simp [fuzzyAux, hwsf, hget, hget', hlast]
      · have hpre2 : (clean.drop (sIdx + 1)).isPrefixOf (compact cs') = true :=
          List.isPrefixOf_iff_prefix.mpr htail
        have hIh := ih (i + 1) (sIdx + 1) (if sIdx = 0 then some i else start)
          (by omega) hpre2 (by omega)
        rw [if_neg (by omega : ¬ sIdx + 1 = 0)] at hIh
        simp only [fuzzyAux, hwsf, Bool.false_eq_true, if_false, hget, if_pos rfl, hlast]
        simpa [hlast] using hIh

/-- Before any character of the compacted snippet has been matched, content
characters that are whitespace or differ from the snippet's first character
are skipped without changing the scan state. -/
theorem fuzzyAux_skip (clean : List Char) (ch : Char) (rest : List Char)
    (hclean : clean = ch :: rest) :
    ∀ (pre suf : List Char) (i : Nat),
      (∀ c ∈ pre, isWs c = false → c ≠ ch) →
      fuzzyAux clean (pre ++ suf) i 0 none = fuzzyAux clean suf (i + pre.length) 0 none := by
  intro pre
  induction pre with
  | nil => intro suf i _; simp
  | cons c pre' ih =>
    intro suf i hall
    by_cases hws : isWs c = true
    · have := ih suf (i + 1) (fun d hd hdw => hall d (by simp [hd]) hdw)
      simpa [fuzzyAux, hws, Nat.add_comm, Nat.add_assoc, Nat.add_left_comm] using this
    · have hne : c ≠ ch := hall c (by simp) (Bool.eq_false_iff.mpr hws)
      have hget : clean.get? 0 ≠ some c := by
        simp [hclean]
        exact fun h => hne h.symm
      have := ih suf (i + 1) (fun d hd hdw => hall d (by simp [hd]) hdw)
      simp only [List.cons_append, fuzzyAux, hws, Bool.false_eq_true, if_false]
      rw [if_neg (by simpa using hget)]
      simp only [Option.isSome_none, Bool.false_eq_true, if_false]
      simpa [Nat.add_comm, Nat.add_assoc, Nat.add_left_comm] using this

/-- **C1 (counterexample).** `snippet = "a b"` is obtained from the
substring `"ab"` of `content = "aab"` at offset 1 by inserting whitespace,
and no full match of the compacted sequence `"ab"` occurs before offset 1;
yet `findSnippetIndex` returns `-1`, not `1`: the greedy scan's false start
at offset 0 consumes the true starting position (no backtracking). -/
theorem claim1_counterexample :
    compact ("a b".toList) = "ab".toList ∧
    ("aab".toList.drop 1).take 2 = "ab".toList ∧
    compactMatchAt "aab".toList (compact "a b".toList) 1 = true ∧
    (∀ q < 1, compactMatchAt "aab".toList (compact "a b".toList) q = false) ∧
    findSnippetIndex "aab".toList "a b".toList = -1 ∧
    findSnippetIndex "aab".toList "a b".toList ≠ 1 := by
  refine ⟨by decide, by decide, by decide, ?_, by decide, by decide⟩
  intro q hq
  interval_cases q
  decide

/-- **C1 (amended).** If the snippet has no exact occurrence, its compacted
form is non-empty and fully matches at position `p` (a non-whitespace
position), and additionally no non-whitespace character before `p` equals
the compacted snippet's first character (ruling out greedy false starts),
then `findSnippetIndex` returns `p`. -/
theorem claim1_fuzzy_locates (content snippet : List Char) (p : Nat)
    (ch : Char) (rest : List Char)
    (hexact : indexOfFrom content snippet = none)
    (hclean : compact snippet = ch :: rest)
    (hmatch : compactMatchAt content (compact snippet) p = true)
    (hbefore : ∀ c ∈ content.take p, isWs c = false → c ≠ ch) :
    findSnippetIndex content snippet = (p : Int) := by
  have hget : ∃ c, content.get? p = some c ∧ isWs c = false ∧
      (compact snippet).isPrefixOf (compact (content.drop p)) = true := by
    unfold compactMatchAt at hmatch
    rcases hcp : content.get? p with _ | c
    · rw [hcp] at hmatch; cases hmatch
    · rw [hcp] at hmatch
      simp only [Bool.and_eq_true, Bool.not_eq_true'] at hmatch
      exact ⟨c, rfl, hmatch.1, hmatch.2⟩
  rcases hget with ⟨c, hcp, hcws, hpre⟩
  have hplt : p < content.length := List.get?_eq_some.mp hcp |>.1
  have hdrop : content.drop p = c :: content.drop (p + 1) := by
    have := List.drop_eq_getElem_cons hplt
    rwa [show content[p] = c by
      have := List.get?_eq_some.mp hcp
      rcases this with ⟨h1, h2⟩
      simpa using h2] at this
  have hsplit : content = content.take p ++ content.drop p := (List.take_append_drop p content).symm
  have hlen : (content.take p).length = p := by
    simp [List.length_take]; omega
  have hrun : fuzzyAux (compact snippet) content 0 0 none = some p := by
    conv_lhs => rw [hsplit]
    rw [fuzzyAux_skip (compact snippet) ch rest hclean (content.take p) (content.drop p) 0 hbefore]
    rw [hlen, hdrop]
    have := fuzzyAux_hit (compact snippet) (c :: content.drop (p + 1)) p 0 none
      (by simp [hclean]) (by rw [← hdrop]; exact hpre)
      (fun _ => ⟨c, content.drop (p + 1), rfl, hcws⟩)
    simpa using this
  have hne : compact snippet ≠ [] := by simp [hclean]
  simp [findSnippetIndex, hexact, hne, hrun]

theorem claim1_witness :
    (indexOfFrom "cab".toList "a b".toList = none ∧
     compact "a b".toList = 'a' :: "b".toList ∧
     compactMatchAt "cab".toList (compact "a b".toList) 1 = true ∧
     ∀ c ∈ "cab".toList.take 1, isWs c = false → c ≠ 'a') ∧
    findSnippetIndex "cab".toList "a b".toList = (1 : Int) :=
  ⟨⟨by decide, by decide, by decide, by decide⟩,
   claim1_fuzzy_locates "cab".toList "a b".toList 1 'a' "b".toList
     (by decide) (by decide) (by decide) (by decide)⟩

/-! ### Virtual pagination (`pages` memo, `DocumentViewer.tsx` lines 99-165) -/

/-- A derived page: `{ text, startIndex }`. -/
structure Page where
  text : List Char
  startIndex : Nat
deriving Repr, DecidableEq

/-- `CHARS_PER_PAGE` (`DocumentViewer.tsx` line 13). -/
def CHARS_PER_PAGE : Nat := 2500

/-- `content.split('\n')` : split on every newline; `"".split('\n')`
is `[""]`. -/
def splitNl : List Char → List (List Char)
  | [] => [[]]
  | c :: cs =>
    if c = '\n' then [] :: splitNl cs
    else
      match splitNl cs with
      | [] => [[c]]
      | p :: ps => (c :: p) :: ps

/-- Length of the leading digit run (regex `\d+`, greedy). -/
def digitCount : List Char → Nat
  | [] => 0
  | c :: cs => if c.isDigit then digitCount cs + 1 else 0

/-- The literal head of the page-marker pattern `--- Página \d+ ---\n?`. -/
def markerHead : List Char := "--- Página ".toList

/-- The literal tail of the page-marker pattern before the optional newline. -/
def markerTailPat : List Char := " ---".toList

/-- Length of the page-marker regex match starting at the head of `cs`
(regex `--- Página \d+ ---` plus optional `\n`), or `none` when the
pattern does not match
here.  The digit run is maximal; backtracking to a shorter run can never
succeed because the next pattern character is a space. -/
def markerMatchLen (cs : List Char) : Option Nat :=
  if markerHead.isPrefixOf cs then
    if 0 < digitCount (cs.drop 11) ∧
        markerTailPat.isPrefixOf ((cs.drop 11).drop (digitCount (cs.drop 11))) then
      if cs.get? (11 + digitCount (cs.drop 11) + 4) = some '\n' then
        some (11 + digitCount (cs.drop 11) + 4 + 1)
      else some (11 + digitCount (cs.drop 11) + 4)
    else none
  else none

theorem markerMatchLen_pos {cs : List Char} {len : Nat}
    (h : markerMatchLen cs = some len) : 1 ≤ len := by
  unfold markerMatchLen at h
  split at h
  · split at h
    · split at h <;> (cases h; omega)
    · cases h
  · cases h

theorem digitCount_le (cs : List Char) : digitCount cs ≤ cs.length := by
  induction cs with
  | nil => simp [digitCount]
  | cons c cs ih =>
    unfold digitCount
    split
    · simp only [List.length_cons]
      omega
    · simp

theorem markerMatchLen_le {cs : List Char} {len : Nat}
    (h : markerMatchLen cs = some len) : len ≤ cs.length := by
  unfold markerMatchLen at h
  split at h
  · rename_i hhead
    split at h
    · rename_i hcond
      have htail : markerTailPat.length ≤ ((cs.drop 11).drop (digitCount (cs.drop 11))).length :=
        (List.isPrefixOf_iff_prefix.mp hcond.2).length_le
      have htl : markerTailPat.length = 4 := by decide
      rw [htl, List.length_drop, List.length_drop] at htail
      split at h
      · rename_i hnl
        cases h
        obtain ⟨hlt, -⟩ := List.get?_eq_some.mp hnl
        omega
      · cases h
        omega
    · cases h
  · cases h

/-- Fuel-based scan for `allMarkers`; every recursive call consumes at
least one content character, so fuel equal to the suffix length is exact. -/
def allMarkersAux : Nat → List Char → Nat → List (Nat × Nat)
  | 0, _, _ => []
  | _ + 1, [], _ => []
  | fuel + 1, c :: cs', i =>
    match markerMatchLen (c :: cs') with
    | some len => (i, len) :: allMarkersAux fuel ((c :: cs').drop len) (i + len)
    | none => allMarkersAux fuel cs' (i + 1)

/-- All matches of the page-marker regex found by the `exec` loop: the
leftmost match at or after the current scan position, then rescanning from
the end of that match (`regex.lastIndex` behaviour).  `cs` is the content
suffix at absolute position `i`. -/
def allMarkers (cs : List Char) (i : Nat) : List (Nat × Nat) :=
  allMarkersAux cs.length cs i

/-- JavaScript `str.substring(a, b)`: clamps both arguments to
`[0, length]` and swaps them when `a > b`. -/
def jsSubstring (l : List Char) (a b : Nat) : List Char :=
  (l.drop (min (min a l.length) (min b l.length))).take
    (max (min a l.length) (min b l.length) - min (min a l.length) (min b l.length))

/-- The body of the marker-pagination `while` loop
(`DocumentViewer.tsx` lines 109-128): one page per marker, running from
the end of that marker to the start of the next (or the end of content);
an empty page is kept only when it is the first pushed page. -/
def markerPagesFromList (content : List Char) : List (Nat × Nat) → List Page → List Page
  | [], acc => acc.reverse
  | (idx, len) :: rest, acc =>
    if (jsSubstring content (idx + len)
          (match rest with | [] => content.length | (idx2, _) :: _ => idx2)).length > 0
        ∨ acc = [] then
      markerPagesFromList content rest
        (⟨jsSubstring content (idx + len)
            (match rest with | [] => content.length | (idx2, _) :: _ => idx2),
          idx + len⟩ :: acc)
    else markerPagesFromList content rest acc

/-- The fallback character-count pagination loop
(`DocumentViewer.tsx` lines 142-162).  Arguments after the paragraph list:
accumulated pages, `currentPageText`, `currentPageStartIndex`,
`currentLength`, `globalIndexTracker`. -/
def fallbackLoop : List (List Char) → List Page → List Char → Nat → Nat → Nat → List Page
  | [], arr, cur, curStart, _, _ =>
    if cur.length > 0 then arr ++ [⟨cur, curStart⟩] else arr
  | para :: rest, arr, cur, curStart, curLen, globalIdx =>
    if curLen + para.length > CHARS_PER_PAGE ∧ cur.length > 0 then
      fallbackLoop rest (arr ++ [⟨cur, curStart⟩]) (para ++ ['\n']) globalIdx
        (para ++ ['\n']).length (globalIdx + (para ++ ['\n']).length)
    else
      fallbackLoop rest arr (cur ++ (para ++ ['\n'])) curStart
        (curLen + (para ++ ['\n']).length) (globalIdx + (para ++ ['\n']).length)

/-- Fallback pagination: split on newlines and accumulate paragraphs. -/
def fallbackPages (content : List Char) : List Page :=
  fallbackLoop (splitNl content) [] [] 0 0 0

/-- The `pages` memo (`DocumentViewer.tsx` lines 99-165) for a non-null
document: empty content gives one empty page; content whose marker scan
finds at least one match is split on markers (falling back if that somehow
produced no pages, mirroring `if (pagesArr.length > 0) return pagesArr`);
otherwise character-count pagination. -/
def paginate (content : List Char) : List Page :=
  if content = [] then [⟨[], 0⟩]
  else if allMarkers content 0 ≠ [] then
    if markerPagesFromList content (allMarkers content 0) [] ≠ [] then
      markerPagesFromList content (allMarkers content 0) []
    else fallbackPages content
  else fallbackPages content

/-- The `pages` memo including the `!document || !document.content` guard:
`none` models a null/undefined content. -/
def paginateOpt : Option (List Char) → List Page
  | none => [⟨[], 0⟩]
  | some content => paginate content

example :
    paginate ("Page one text.\n--- Página 2 ---\nPage two text.".toList) =
      [⟨"Page two text.".toList, 32⟩] := by decide

example :
    paginate "abc".toList = [⟨"abc\n".toList, 0⟩] := by decide

example :
    paginate "a\nb".toList = [⟨"a\nb\n".toList, 0⟩] := by decide

example :
    paginate ("--- Página 1 ---\nfirst\n--- Página 2 ---\nsecond".toList) =
      [⟨"first\n".toList, 17⟩, ⟨"second".toList, 40⟩] := by decide

/-- **C2 (counterexample).** On
`"Page one text.\n--- Página 2 ---\nPage two text."` the marker-based
paginator does not produce 2 pages: the text before the first marker is
never emitted, so there is exactly one page. -/
theorem claim2_counterexample :
    ¬ ((paginate ("Page one text.\n--- Página 2 ---\nPage two text.".toList)).length = 2 ∧
       ((paginate ("Page one text.\n--- Página 2 ---\nPage two text.".toList)).get? 1).map
          Page.text = some "Page two text.".toList) := by
  decide

/-- **C2 (amended).** For that content the explicit-marker policy produces
exactly one page whose text is `"Page two text."` and whose `startIndex` is
32, the offset immediately after the marker line (the text before the
first marker is dropped). -/
theorem claim2_marker_scenario :
    paginate ("Page one text.\n--- Página 2 ---\nPage two text.".toList) =
      [⟨"Page two text.".toList, 32⟩] ∧
    ("Page one text.\n--- Página 2 ---\n".toList).length = 32 := by
  decide

theorem splitNl_ne_nil (cs : List Char) : splitNl cs ≠ [] := by
  cases cs with
  | nil => simp [splitNl]
  | cons c cs' =>
    unfold splitNl
    split
    · simp
    · split <;> simp

/-- The fallback loop never returns an empty page list: the current page
always holds at least the newline appended to the last paragraph. -/
theorem fallbackLoop_ne_nil :
    ∀ (paras : List (List Char)) (arr : List Page) (cur : List Char)
      (curStart curLen globalIdx : Nat),
      (paras = [] → cur ≠ [] ∨ arr ≠ []) →
      fallbackLoop paras arr cur curStart curLen globalIdx ≠ [] := by
  intro paras
  induction paras with
  | nil =>
    intro arr cur curStart curLen globalIdx hne
    rcases hne rfl with hc | ha
    · have : cur.length > 0 := by
        cases cur
        · exact absurd rfl hc
        · simp
      simp [fallbackLoop, this]
    · unfold fallbackLoop
      split
      · simp
      · exact ha
  | cons para rest ih =>
    intro arr cur curStart curLen globalIdx _
    unfold fallbackLoop
    split
    · exact ih _ _ _ _ _ (fun _ => Or.inl (by simp))
    · exact ih _ _ _ _ _ (fun _ => Or.inl (by simp))

/-- **C9.** Null content and empty content both paginate to exactly one
page with empty text and `startIndex` 0, and pagination always yields at
least one page for downstream rendering to iterate. -/
theorem claim9_empty_content :
    paginateOpt none = [⟨[], 0⟩] ∧
    paginateOpt (some []) = [⟨[], 0⟩] ∧
    ∀ content, paginateOpt content ≠ [] := by
  refine ⟨rfl, by decide, ?_⟩
  intro content
  cases content with
  | none => simp [paginateOpt]
  | some c =>
    simp only [paginateOpt, paginate]
    split
    · simp
    · split
      · split
        · assumption
        · exact fallbackLoop_ne_nil _ _ _ _ _ _ (fun h => absurd h (splitNl_ne_nil c))
      · exact fallbackLoop_ne_nil _ _ _ _ _ _ (fun h => absurd h (splitNl_ne_nil c))

/-- Re-joining the newline-split paragraphs with a trailing `'\n'` on each
reconstructs the content followed by one extra newline. -/
theorem join_splitNl (cs : List Char) :
    ((splitNl cs).map (fun p => p ++ ['\n'])).flatten = cs ++ ['\n'] := by
  induction cs with
  | nil => simp [splitNl]
  | cons c cs' ih =>
    unfold splitNl
    split
    · rename_i hc
      subst hc
      simpa using ih
    · rcases hs : splitNl cs' with _ | ⟨p, ps⟩
      · exact absurd hs (splitNl_ne_nil cs')
      · rw [hs] at ih
        simpa using ih

/-- The texts of the pages produced by the fallback loop concatenate to the
accumulated text so far plus every remaining paragraph with its newline. -/
theorem fallbackLoop_join :
    ∀ (paras : List (List Char)) (arr : List Page) (cur : List Char)
      (curStart curLen globalIdx : Nat),
      ((fallbackLoop paras arr cur curStart curLen globalIdx).map Page.text).flatten =
        ((arr.map Page.text).flatten) ++ cur ++ ((paras.map (fun p => p ++ ['\n'])).flatten) := by
  intro paras
  induction paras with
  | nil =>
    intro arr cur curStart curLen globalIdx
    unfold fallbackLoop
    split
    · simp
    · rename_i hlen
      have : cur = [] := by
        cases cur
        · rfl
        · simp at hlen
      simp [this]
  | cons para rest ih =>
    intro arr cur curStart curLen globalIdx
    unfold fallbackLoop
    split
    · rw [ih]
      simp
    · rw [ih]
      simp

/-- **C5.** For content without page markers, concatenating all page texts
of the fallback paginator reconstructs the content exactly up to
trailing-newline normalization: it equals the content (empty case) or the
content plus a single trailing newline. -/
theorem claim5_fallback_reconstructs (content : List Char)
    (hnomark : allMarkers content 0 = []) :
    ((paginate content).map Page.text).flatten = content ∨
    ((paginate content).map Page.text).flatten = content ++ ['\n'] := by
  by_cases hempty : content = []
  · subst hempty
    left
    rfl
  · right
    unfold paginate
    rw [if_neg hempty, if_neg (by simp [hnomark])]
    unfold fallbackPages
    rw [fallbackLoop_join]
    simpa using join_splitNl content

theorem claim5_witness :
    allMarkers "hello\nworld".toList 0 = [] ∧
    (((paginate "hello\nworld".toList).map Page.text).flatten = "hello\nworld".toList ∨
     ((paginate "hello\nworld".toList).map Page.text).flatten = "hello\nworld".toList ++ ['\n']) :=
  ⟨by decide, claim5_fallback_reconstructs "hello\nworld".toList (by decide)⟩

/-! ### C6: are pages substrings of the content? -/

theorem jsSubstring_eq_of_le (l : List Char) (a b : Nat) (hab : a ≤ b) :
    jsSubstring l a b = (l.drop a).take (b - a) := by
  unfold jsSubstring
  rw [Nat.min_eq_left (min_le_min hab (le_refl l.length)),
      Nat.max_eq_right (min_le_min hab (le_refl l.length))]
  rcases Nat.le_total a l.length with ha | ha
  · rw [Nat.min_eq_left ha]
    rcases Nat.le_total b l.length with hb | hb
    · rw [Nat.min_eq_left hb]
    · have hd : (l.drop a).length = l.length - a := List.length_drop ..
      rw [Nat.min_eq_right hb]
      rw [List.take_of_length_le (le_of_eq hd),
          List.take_of_length_le ((by rw [hd]; omega : (l.drop a).length ≤ b - a))]
  · rw [Nat.min_eq_right ha, Nat.min_eq_right (by omega : l.length ≤ b), Nat.sub_self,
      List.take_zero]
    rw [List.drop_eq_nil_of_le ha]
    simp

/-- A marker page is a slice of the content when its bounds are in range. -/
theorem jsPage_ok (content : List Char) (start stop : Nat)
    (h1 : start ≤ stop) (h2 : stop ≤ content.length) :
    jsSubstring content start stop =
      (content.drop start).take ((jsSubstring content start stop).length) ∧
    start + (jsSubstring content start stop).length ≤ content.length := by
  have htext := jsSubstring_eq_of_le content start stop h1
  have htlen : (jsSubstring content start stop).length = stop - start := by
    rw [htext, List.length_take, List.length_drop]
    omega
  refine ⟨?_, ?_⟩
  · rw [htlen]
    exact htext
  · rw [htlen]
    omega

/-- The chain invariant satisfied by the marker list: indices are at least
the scan position, matches are non-empty, and each match ends inside the
content before the next match begins. -/
def MarkersChained (n : Nat) : Nat → List (Nat × Nat) → Prop
  | _, [] => True
  | b, (idx, len) :: rest => b ≤ idx ∧ 1 ≤ len ∧ idx + len ≤ n ∧ MarkersChained n (idx + len) rest

theorem markersChained_weaken {n b b' : Nat} {ms : List (Nat × Nat)}
    (hb : b ≤ b') (h : MarkersChained n b' ms) : MarkersChained n b ms := by
  cases ms with
  | nil => trivial
  | cons m rest =>
    obtain ⟨h1, h2, h3, h4⟩ := h
    exact ⟨le_trans hb h1, h2, h3, h4⟩

theorem allMarkersAux_chained :
    ∀ (fuel : Nat) (cs : List Char) (i : Nat),
      MarkersChained (i + cs.length) i (allMarkersAux fuel cs i) := by
  intro fuel
  induction fuel with
  | zero => intro cs i; trivial
  | succ fuel ih =>
    intro cs i
    cases cs with
    | nil => trivial
    | cons c cs' =>
      unfold allMarkersAux
      rcases hm : markerMatchLen (c :: cs') with _ | len
      · show MarkersChained (i + (c :: cs').length) i (allMarkersAux fuel cs' (i + 1))
        have h := ih cs' (i + 1)
        have heq : i + 1 + cs'.length = i + (c :: cs').length := by
          simp only [List.length_cons]
          omega
        rw [heq] at h
        exact markersChained_weaken (by omega) h
      · show MarkersChained (i + (c :: cs').length) i
          ((i, len) :: allMarkersAux fuel ((c :: cs').drop len) (i + len))
        have hpos := markerMatchLen_pos hm
        have hle := markerMatchLen_le hm
        refine ⟨le_refl i, hpos, by simp only [List.length_cons] at hle ⊢; omega, ?_⟩
        have h := ih ((c :: cs').drop len) (i + len)
        have heq : i + len + ((c :: cs').drop len).length = i + (c :: cs').length := by
          simp only [List.length_drop]
          omega
        rwa [heq] at h

theorem markersChained_allMarkers (content : List Char) :
    MarkersChained content.length 0 (allMarkers content 0) := by
  have := allMarkersAux_chained content.length content 0
  simpa [allMarkers] using this

theorem markerPages_slices (content : List Char) :
    ∀ (ms : List (Nat × Nat)) (acc : List Page) (b : Nat),
      MarkersChained content.length b ms →
      (∀ p ∈ acc, p.text = (content.drop p.startIndex).take p.text.length ∧
        p.startIndex + p.text.length ≤ content.length) →
      ∀ p ∈ markerPagesFromList content ms acc,
        p.text = (content.drop p.startIndex).take p.text.length ∧
        p.startIndex + p.text.length ≤ content.length := by
  intro ms
  induction ms with
  | nil =>
    intro acc b _ hacc p hp
    simp only [markerPagesFromList, List.mem_reverse] at hp
    exact hacc p hp
  | cons m rest ih =>
    intro acc b hch hacc p hp
    obtain ⟨idx, len⟩ := m
    obtain ⟨hb, hlen, hin, hrest⟩ := hch
    cases rest with
    | nil =>
      have hok := jsPage_ok content (idx + len) content.length hin (le_refl _)
      unfold markerPagesFromList at hp
      split at hp
      · refine ih _ (idx + len) hrest ?_ p hp
        intro q hq
        rcases List.mem_cons.mp hq with hq1 | hq2
        · subst hq1
          exact hok
        · exact hacc q hq2
      · exact ih _ (idx + len) hrest hacc p hp
    | cons m2 rest2 =>
      obtain ⟨idx2, len2⟩ := m2
      obtain ⟨hb2, hl2, hn2, hrest2⟩ := hrest
      have hok := jsPage_ok content (idx + len) idx2 hb2 (by omega)
      unfold markerPagesFromList at hp
      split at hp
      · refine ih _ (idx + len) ⟨hb2, hl2, hn2, hrest2⟩ ?_ p hp
        intro q hq
        rcases List.mem_cons.mp hq with hq1 | hq2
        · subst hq1
          exact hok
        · exact hacc q hq2
      · exact ih _ (idx + len) ⟨hb2, hl2, hn2, hrest2⟩ hacc p hp

theorem slice_extendRight (l t : List Char) (s k : Nat) (h : s + k ≤ l.length) :
    ((l ++ t).drop s).take k = (l.drop s).take k := by
  rw [List.drop_append_eq_append_drop, List.take_append_eq_append_take]
  have h1 : (l.drop s).length = l.length - s := List.length_drop ..
  have h2 : k - (l.drop s).length = 0 := by omega
  have h3 : s - l.length = 0 := by omega
  rw [h2, h3]
  simp

theorem fallbackLoop_slices (full : List Char) :
    ∀ (paras : List (List Char)) (arr : List Page) (cur : List Char)
      (curStart curLen globalIdx : Nat),
      globalIdx = curStart + cur.length →
      full.drop curStart = cur ++ ((paras.map (fun p => p ++ ['\n'])).flatten) →
      (∀ p ∈ arr, p.text = (full.drop p.startIndex).take p.text.length) →
      ∀ p ∈ fallbackLoop paras arr cur curStart curLen globalIdx,
        p.text = (full.drop p.startIndex).take p.text.length := by
  intro paras
  induction paras with
  | nil =>
    intro arr cur curStart curLen globalIdx h1 h2 hacc p hp
    simp only [List.map_nil, List.flatten_nil, List.append_nil] at h2
    unfold fallbackLoop at hp
    split at hp
    · rcases List.mem_append.mp hp with hq | hq
      · exact hacc p hq
      · rcases List.mem_singleton.mp hq with rfl
        simp only [← h2]
        rw [List.take_of_length_le (le_refl _)]
    · exact hacc p hp
  | cons para rest ih =>
    intro arr cur curStart curLen globalIdx h1 h2 hacc p hp
    simp only [List.map_cons, List.flatten_cons] at h2
    have hg : full.drop globalIdx =
        (para ++ ['\n']) ++ ((rest.map (fun p => p ++ ['\n'])).flatten) := by
      have e1 : full.drop globalIdx = (full.drop curStart).drop cur.length := by
        rw [List.drop_drop, h1, Nat.add_comm]
      rw [e1, h2, List.drop_left]
    unfold fallbackLoop at hp
    split at hp
    · refine ih _ _ _ _ _ rfl hg ?_ p hp
      intro q hq
      rcases List.mem_append.mp hq with hq1 | hq2
      · exact hacc q hq1
      · rcases List.mem_singleton.mp hq2 with rfl
        simp only
        rw [h2]
        rw [show cur ++ (para ++ ['\n'] ++ (rest.map (fun p => p ++ ['\n'])).flatten) =
          cur ++ ((para ++ ['\n']) ++ (rest.map (fun p => p ++ ['\n'])).flatten) from rfl]
        rw [List.take_left]
    · refine ih _ _ _ _ _ ?_ ?_ hacc p hp
      · rw [h1]
        simp only [List.length_append]
        omega
      · rw [List.append_assoc]
        exact h2

/-- **C6 (counterexample).** For `content = "abc"` (fallback policy), the
single produced page has text `"abc\n"`, which is not a substring of the
content at its `startIndex`: the final appended newline lies past the end
of the content. -/
theorem claim6_counterexample :
    ¬ ∀ p ∈ paginate "abc".toList,
        p.text = ("abc".toList.drop p.startIndex).take p.text.length := by
  decide

/-- **C6 (amended).** Every page produced by either pagination policy is a
slice of the content extended by one trailing newline:
`(content ++ '\n').substring(startIndex, startIndex + text.length) = text`.
(Marker-policy pages in fact lie inside the content itself; only the final
newline appended by the fallback accumulator can exceed it.) -/
theorem claim6_page_text_is_slice (content : List Char) :
    ∀ p ∈ paginate content,
      p.text = ((content ++ ['\n']).drop p.startIndex).take p.text.length := by
  intro p hp
  unfold paginate at hp
  split at hp
  · rcases List.mem_singleton.mp hp with rfl
    simp
  · have hfall : ∀ q ∈ fallbackPages content,
        q.text = ((content ++ ['\n']).drop q.startIndex).take q.text.length := by
      intro q hq
      refine fallbackLoop_slices (content ++ ['\n']) (splitNl content) [] [] 0 0 0 rfl ?_
        (by intro r hr; cases hr) q hq
      simpa using (join_splitNl content).symm
    split at hp
    · split at hp
      · have hmk := markerPages_slices content (allMarkers content 0) [] 0
          (markersChained_allMarkers content) (by intro r hr; cases hr) p hp
        rw [slice_extendRight content ['\n'] p.startIndex p.text.length hmk.2]
        exact hmk.1
      · exact hfall p hp
    · exact hfall p hp

theorem claim6_witness :
    (⟨"abc\n".toList, 0⟩ : Page) ∈ paginate "abc".toList ∧
    (⟨"abc\n".toList, 0⟩ : Page).text =
      (("abc".toList ++ ['\n']).drop 0).take "abc\n".toList.length :=
  ⟨by decide, claim6_page_text_is_slice "abc".toList ⟨"abc\n".toList, 0⟩ (by decide)⟩

/-! ### Rendering a page (`renderPageContent`, `DocumentViewer.tsx` 169-276)

Only the text structure of the output is modelled: each line renders
either as a bare line break (blank line) or as a paragraph made of plain
spans and highlight `mark` spans; `anchored` records whether the mark
carries the `highlight-<id>` scroll-anchor element id (first occurrence).
CSS class strings and click handlers are styling only and not modelled. -/

/-- The fields of a highlight consumed by the composition logic; risk
level, explanation, category and remediation only influence styling. -/
structure Highlight where
  id : String
  textSnippet : List Char
deriving Repr, DecidableEq

/-- A highlight resolved to a page: `{ ...h, localIndex, length }`. -/
structure Resolved where
  id : String
  localIndex : Nat
  len : Nat
deriving Repr, DecidableEq

/-- Step 1 of `renderPageContent` (lines 170-178): locate every highlight
in the full content and keep those whose offset falls inside this page. -/
def resolveHighlights (content : List Char) (highlights : List Highlight)
    (pageStartIndex : Nat) (pageLen : Nat) : List Resolved :=
  highlights.filterMap (fun h =>
    if findSnippetIndex content h.textSnippet ≠ -1 ∧
        (pageStartIndex : Int) ≤ findSnippetIndex content h.textSnippet ∧
        findSnippetIndex content h.textSnippet < (pageStartIndex : Int) + (pageLen : Int) then
      some ⟨h.id, (findSnippetIndex content h.textSnippet - (pageStartIndex : Int)).toNat,
        h.textSnippet.length⟩
    else none)

/-- Stable insertion used to model `sort((a, b) => a.localIndex - b.localIndex)`
(ECMAScript sort is stable). -/
def insertByLocal (h : Resolved) : List Resolved → List Resolved
  | [] => [h]
  | x :: xs => if h.localIndex ≤ x.localIndex then h :: x :: xs else x :: insertByLocal h xs

/-- Stable sort of resolved highlights by ascending `localIndex`. -/
def sortResolved : List Resolved → List Resolved
  | [] => []
  | x :: xs => insertByLocal x (sortResolved xs)

/-- A rendered span inside a paragraph line. -/
inductive Part where
  | plain (text : List Char)
  | mark (id : String) (anchored : Bool) (text : List Char)
deriving Repr, DecidableEq

/-- A rendered line: `<br/>` for blank lines, else a paragraph of spans. -/
inductive LineOut where
  | lineBreak
  | para (parts : List Part)
deriving Repr, DecidableEq

/-- JavaScript `trim()`: strip leading and trailing whitespace. -/
def trimJs (l : List Char) : List Char :=
  ((l.dropWhile (fun c => isWs c)).reverse.dropWhile (fun c => isWs c)).reverse

/-- JavaScript `str.replace(pat, '')` for a string pattern: remove the
first occurrence only. -/
def removeFirst (l pat : List Char) : List Char :=
  match indexOfFrom l pat with
  | none => l
  | some i => l.take i ++ l.drop (i + pat.length)

/-- Regex test `/^\d+\./`: one or more digits then a dot.  (Backtracking to
a shorter digit run can never help because a digit is not a dot.) -/
def numDotTest (l : List Char) : Bool :=
  decide (0 < digitCount l) && decide (l.get? (digitCount l) = some '.')

/-- The markdown-ish `cleanLine` ladder (lines 194-213); branches that only
change the CSS class leave the text unchanged. -/
def cleanLineOf (line : List Char) : List Char :=
  if "# ".toList.isPrefixOf line then removeFirst line "# ".toList
  else if "## ".toList.isPrefixOf line then removeFirst line "## ".toList
  else if "### ".toList.isPrefixOf line then removeFirst line "### ".toList
  else if numDotTest (trimJs line) then line
  else if "- ".toList.isPrefixOf (trimJs line) then line
  else if "> ".toList.isPrefixOf (trimJs line) then removeFirst line "> ".toList
  else line

/-- The `relevantHighlights.forEach` walk (lines 227-268): emit the plain
gap before each highlight, then the highlight span clipped to the line;
returns the parts, the final `cursorInLine`, and the updated set of
already-rendered highlight ids.  (`max 0 (x - y)` mirrors
`Math.max(0, x - y)`; on the filtered intersecting highlights the
clipped bounds match JavaScript arithmetic exactly.) -/
def buildPartsAux (line : List Char) (lineStart : Nat) :
    List Resolved → Nat → List String → List Part × Nat × List String
  | [], cursor, seen => ([], cursor, seen)
  | h :: rest, cursor, seen =>
    ((if cursor < max 0 (h.localIndex - lineStart) then
        [Part.plain (jsSubstring line cursor (max 0 (h.localIndex - lineStart)))]
      else []) ++
      Part.mark h.id (!(seen.contains h.id))
        (jsSubstring line (max 0 (h.localIndex - lineStart))
          (min line.length (h.localIndex + h.len - lineStart))) ::
      (buildPartsAux line lineStart rest
        (min line.length (h.localIndex + h.len - lineStart))
        (if !(seen.contains h.id) then h.id :: seen else seen)).1,
     (buildPartsAux line lineStart rest
        (min line.length (h.localIndex + h.len - lineStart))
        (if !(seen.contains h.id) then h.id :: seen else seen)).2)

/-- Rendering of one line (lines 186-275): blank lines render as a break
(before any highlight handling); lines without intersecting highlights
render their `cleanLine`; otherwise the highlight walk plus the trailing
plain gap. -/
def renderLine (line : List Char) (lineStart : Nat) (resolved : List Resolved)
    (seen : List String) : LineOut × List String :=
  if trimJs line = [] then (LineOut.lineBreak, seen)
  else if (resolved.filter (fun h =>
      decide (h.localIndex < lineStart + line.length) &&
      decide (lineStart < h.localIndex + h.len))) = [] then
    (LineOut.para [Part.plain (cleanLineOf line)], seen)
  else
    (LineOut.para
      ((buildPartsAux line lineStart (resolved.filter (fun h =>
          decide (h.localIndex < lineStart + line.length) &&
          decide (lineStart < h.localIndex + h.len))) 0 seen).1 ++
        (if (buildPartsAux line lineStart (resolved.filter (fun h =>
            decide (h.localIndex < lineStart + line.length) &&
            decide (lineStart < h.localIndex + h.len))) 0 seen).2.1 < line.length then
          [Part.plain (jsSubstring line
            ((buildPartsAux line lineStart (resolved.filter (fun h =>
              decide (h.localIndex < lineStart + line.length) &&
              decide (lineStart < h.localIndex + h.len))) 0 seen).2.1) line.length)]
        else [])),
     (buildPartsAux line lineStart (resolved.filter (fun h =>
        decide (h.localIndex < lineStart + line.length) &&
        decide (lineStart < h.localIndex + h.len))) 0 seen).2.2)

/-- The `lines.map` pass, threading `currentLocalIndex` (`+ line.length + 1`
per line) and the `renderedHighlightIds` set across lines. -/
def renderLinesAux : List (List Char) → Nat → List Resolved → List String → List LineOut
  | [], _, _, _ => []
  | line :: rest, curIdx, resolved, seen =>
    (renderLine line curIdx resolved seen).1 ::
      renderLinesAux rest (curIdx + line.length + 1) resolved
        (renderLine line curIdx resolved seen).2

/-- `renderPageContent(pageText, pageStartIndex)` for a given document
content and highlight list. -/
def renderPageContent (content : List Char) (highlights : List Highlight)
    (pageText : List Char) (pageStartIndex : Nat) : List LineOut :=
  renderLinesAux (splitNl pageText) 0
    (sortResolved (resolveHighlights content highlights pageStartIndex pageText.length)) []

/-- Concatenated text of a list of parts. -/
def partsText : List Part → List Char
  | [] => []
  | Part.plain t :: ps => t ++ partsText ps
  | Part.mark _ _ t :: ps => t ++ partsText ps

/-- The `(id, anchored)` pairs of the mark spans of a part list, in order. -/
def marksPairs : List Part → List (String × Bool)
  | [] => []
  | Part.plain _ :: ps => marksPairs ps
  | Part.mark i a _ :: ps => (i, a) :: marksPairs ps

/-- The `(id, text)` pairs of the mark spans of a part list, in order. -/
def marksTexts : List Part → List (String × List Char)
  | [] => []
  | Part.plain _ :: ps => marksTexts ps
  | Part.mark i _ t :: ps => (i, t) :: marksTexts ps

/-- Mark spans of one rendered line. -/
def lineMarks : LineOut → List (String × Bool)
  | LineOut.lineBreak => []
  | LineOut.para ps => marksPairs ps

/-- All mark spans of a rendered page, in document order. -/
def flattenMarks (outs : List LineOut) : List (String × Bool) :=
  (outs.map lineMarks).flatten

/-- Replay of the `renderedHighlightIds` updates along a list of emitted
marks. -/
def foldSeen : List String → List (String × Bool) → List String
  | seen, [] => seen
  | seen, (i, a) :: rest => foldSeen (if a then i :: seen else seen) rest

/-- The anchored flags are exactly "first occurrence not yet in the seen
set", threading the seen set left to right. -/
def anchorsOk : List String → List (String × Bool) → Prop
  | _, [] => True
  | seen, (i, a) :: rest =>
    (a = !(seen.contains i)) ∧ anchorsOk (if a then i :: seen else seen) rest

example :
    renderPageContent "abcdef".toList
      [⟨"h1", "abcd".toList⟩, ⟨"h2", "cdef".toList⟩] "abcdef\n".toList 0 =
      [LineOut.para [Part.mark "h1" true "abcd".toList, Part.mark "h2" true "cdef".toList],
       LineOut.lineBreak] := by decide

example :
    renderPageContent "a\n \nx".toList [⟨"h1", " \nx".toList⟩] "a\n \nx\n".toList 0 =
      [LineOut.para [Part.plain "a".toList],
       LineOut.lineBreak,
       LineOut.para [Part.mark "h1" true "x".toList],
       LineOut.lineBreak] := by decide

/-! ### C7: page membership of highlights -/

theorem mem_insertByLocal (h a : Resolved) (l : List Resolved) :
    a ∈ insertByLocal h l ↔ a = h ∨ a ∈ l := by
  induction l with
  | nil => simp [insertByLocal]
  | cons x xs ih =>
    unfold insertByLocal
    split
    · simp
    · simp only [List.mem_cons, ih]
      tauto

theorem mem_sortResolved (a : Resolved) (l : List Resolved) :
    a ∈ sortResolved l ↔ a ∈ l := by
  induction l with
  | nil => simp [sortResolved]
  | cons x xs ih =>
    unfold sortResolved
    rw [mem_insertByLocal, ih]
    simp

theorem marksPairs_append (a b : List Part) :
    marksPairs (a ++ b) = marksPairs a ++ marksPairs b := by
  induction a with
  | nil => simp [marksPairs]
  | cons p ps ih =>
    cases p <;> simp [marksPairs, ih]

theorem buildPartsAux_pairs (line : List Char) (lineStart : Nat) :
    ∀ (rel : List Resolved) (cursor : Nat) (seen : List String),
      (marksPairs (buildPartsAux line lineStart rel cursor seen).1).map Prod.fst =
        rel.map Resolved.id := by
  intro rel
  induction rel with
  | nil => intro cursor seen; simp [buildPartsAux, marksPairs]
  | cons h rest ih =>
    intro cursor seen
    unfold buildPartsAux
    simp only [marksPairs_append, List.map_append]
    split
    · simp [marksPairs, ih]
    · simp [marksPairs, ih]

theorem renderLine_marks_ids (line : List Char) (lineStart : Nat)
    (resolved : List Resolved) (seen : List String) :
    ∀ p ∈ lineMarks (renderLine line lineStart resolved seen).1,
      ∃ r ∈ resolved, r.id = p.1 := by
  intro p hp
  unfold renderLine at hp
  split at hp
  · simp [lineMarks] at hp
  · split at hp
    · simp [lineMarks, marksPairs] at hp
    · simp only [lineMarks, marksPairs_append] at hp
      have hpp : p ∈ marksPairs (buildPartsAux line lineStart (resolved.filter (fun h =>
          decide (h.localIndex < lineStart + line.length) &&
          decide (lineStart < h.localIndex + h.len))) 0 seen).1 := by
        rcases List.mem_append.mp hp with h1 | h1
        · exact h1
        · exfalso
          revert h1
          split
          · simp [marksPairs]
          · simp [marksPairs]
      have hid : p.1 ∈ (resolved.filter (fun h =>
          decide (h.localIndex < lineStart + line.length) &&
          decide (lineStart < h.localIndex + h.len))).map Resolved.id := by
        rw [← buildPartsAux_pairs line lineStart _ 0 seen]
        exact List.mem_map_of_mem Prod.fst hpp
      rcases List.mem_map.mp hid with ⟨r, hr, hrid⟩
      exact ⟨r, List.mem_of_mem_filter hr, hrid⟩

theorem renderLinesAux_marks_ids :
    ∀ (lines : List (List Char)) (curIdx : Nat) (resolved : List Resolved)
      (seen : List String),
      ∀ p ∈ flattenMarks (renderLinesAux lines curIdx resolved seen),
        ∃ r ∈ resolved, r.id = p.1 := by
  intro lines
  induction lines with
  | nil => intro curIdx resolved seen p hp; simp [renderLinesAux, flattenMarks] at hp
  | cons line rest ih =>
    intro curIdx resolved seen p hp
    simp only [renderLinesAux, flattenMarks, List.map_cons, List.flatten_cons] at hp
    rcases List.mem_append.mp hp with h1 | h1
    · exact renderLine_marks_ids line curIdx resolved seen p h1
    · exact ih _ _ _ p h1

/-- **C7.** A resolved highlight is attached to a page exactly when its
snippet locates in the full content (result not `-1`) at a global offset
inside `[pageStartIndex, pageStartIndex + pageLen)`, with
`localIndex = offset - pageStartIndex`; highlights whose locate fails
contribute nothing on any page; and every rendered mark span comes from a
resolved highlight, so an unlocatable highlight never renders inline (and
nothing here can fail: all functions are total). -/
theorem claim7_page_membership :
    (∀ (content : List Char) (highlights : List Highlight) (psi n : Nat) (r : Resolved),
      r ∈ resolveHighlights content highlights psi n ↔
        ∃ h ∈ highlights,
          findSnippetIndex content h.textSnippet ≠ -1 ∧
          (psi : Int) ≤ findSnippetIndex content h.textSnippet ∧
          findSnippetIndex content h.textSnippet < (psi : Int) + (n : Int) ∧
          r = ⟨h.id, (findSnippetIndex content h.textSnippet - (psi : Int)).toNat,
            h.textSnippet.length⟩) ∧
    (∀ (content : List Char) (highlights : List Highlight) (psi n : Nat),
      resolveHighlights content
        (highlights.filter (fun h => decide (findSnippetIndex content h.textSnippet ≠ -1)))
        psi n = resolveHighlights content highlights psi n) ∧
    (∀ (content : List Char) (highlights : List Highlight) (pageText : List Char) (psi : Nat),
      ∀ p ∈ flattenMarks (renderPageContent content highlights pageText psi),
        ∃ r ∈ resolveHighlights content highlights psi pageText.length, r.id = p.1) := by
  refine ⟨?_, ?_, ?_⟩
  · intro content highlights psi n r
    unfold resolveHighlights
    rw [List.mem_filterMap]
    constructor
    · rintro ⟨h, hh, hf⟩
      split at hf
      · rename_i hcond
        exact ⟨h, hh, hcond.1, hcond.2.1, hcond.2.2, (Option.some_inj.mp hf).symm⟩
      · cases hf
    · rintro ⟨h, hh, h1, h2, h3, rfl⟩
      exact ⟨h, hh, by rw [if_pos ⟨h1, h2, h3⟩]⟩
  · intro content highlights psi n
    induction highlights with
    | nil => rfl
    | cons h rest ih =>
      by_cases hf : findSnippetIndex content h.textSnippet ≠ -1
      · simp only [resolveHighlights, List.filter_cons, List.filterMap_cons] at ih ⊢
        rw [if_pos (by simpa using hf)]
        simp only [List.filterMap_cons]
        rcases hc : (if findSnippetIndex content h.textSnippet ≠ -1 ∧
            (psi : Int) ≤ findSnippetIndex content h.textSnippet ∧
            findSnippetIndex content h.textSnippet < (psi : Int) + (n : Int) then
          some (⟨h.id, (findSnippetIndex content h.textSnippet - (psi : Int)).toNat,
            h.textSnippet.length⟩ : Resolved)
        else none) with _ | v
        · exact ih
        · rw [ih]
      · simp only [resolveHighlights, List.filter_cons, List.filterMap_cons] at ih ⊢
        rw [if_neg (by simpa using hf)]
        rw [if_neg (by intro hcond; exact hf hcond.1)]
        exact ih
  · intro content highlights pageText psi p hp
    have := renderLinesAux_marks_ids (splitNl pageText) 0
      (sortResolved (resolveHighlights content highlights psi pageText.length)) [] p hp
    rcases this with ⟨r, hr, hrid⟩
    exact ⟨r, (mem_sortResolved r _).mp hr, hrid⟩

theorem claim7_witness :
    ((⟨"h1", 2, 4⟩ : Resolved) ∈
        resolveHighlights "abcdef".toList [⟨"h1", "cdef".toList⟩] 0 7 ↔
      ∃ h ∈ [(⟨"h1", "cdef".toList⟩ : Highlight)],
        findSnippetIndex "abcdef".toList h.textSnippet ≠ -1 ∧
        (0 : Int) ≤ findSnippetIndex "abcdef".toList h.textSnippet ∧
        findSnippetIndex "abcdef".toList h.textSnippet < (0 : Int) + (7 : Int) ∧
        (⟨"h1", 2, 4⟩ : Resolved) = ⟨h.id,
          (findSnippetIndex "abcdef".toList h.textSnippet - (0 : Int)).toNat,
          h.textSnippet.length⟩) :=
  claim7_page_membership.1 "abcdef".toList [⟨"h1", "cdef".toList⟩] 0 7 ⟨"h1", 2, 4⟩

/-! ### C8: uniqueness and placement of the scroll anchor -/

theorem anchorsOk_append :
    ∀ (xs : List (String × Bool)) (s : List String) (ys : List (String × Bool)),
      anchorsOk s (xs ++ ys) ↔ anchorsOk s xs ∧ anchorsOk (foldSeen s xs) ys := by
  intro xs
  induction xs with
  | nil => intro s ys; simp [anchorsOk, foldSeen]
  | cons m rest ih =>
    intro s ys
    obtain ⟨i, a⟩ := m
    show ((a = !(s.contains i)) ∧ anchorsOk (if a = true then i :: s else s) (rest ++ ys)) ↔
      ((a = !(s.contains i)) ∧ anchorsOk (if a = true then i :: s else s) rest) ∧
        anchorsOk (foldSeen (if a = true then i :: s else s) rest) ys
    rw [ih]
    tauto

theorem buildPartsAux_anchors (line : List Char) (lineStart : Nat) :
    ∀ (rel : List Resolved) (cursor : Nat) (seen : List String),
      anchorsOk seen (marksPairs (buildPartsAux line lineStart rel cursor seen).1) ∧
      (buildPartsAux line lineStart rel cursor seen).2.2 =
        foldSeen seen (marksPairs (buildPartsAux line lineStart rel cursor seen).1) := by
  intro rel
  induction rel with
  | nil => intro cursor seen; exact ⟨trivial, rfl⟩
  | cons h rest ih =>
    intro cursor seen
    unfold buildPartsAux
    simp only [marksPairs_append]
    split
    · simp only [marksPairs, List.nil_append, List.singleton_append]
      constructor
      · exact ⟨rfl, (ih _ _).1⟩
      · simp only [anchorsOk, foldSeen]
        exact (ih _ _).2
    · simp only [marksPairs, List.nil_append]
      constructor
      · exact ⟨rfl, (ih _ _).1⟩
      · simp only [anchorsOk, foldSeen]
        exact (ih _ _).2

theorem renderLine_anchors (line : List Char) (lineStart : Nat)
    (resolved : List Resolved) (seen : List String) :
    anchorsOk seen (lineMarks (renderLine line lineStart resolved seen).1) ∧
    (renderLine line lineStart resolved seen).2 =
      foldSeen seen (lineMarks (renderLine line lineStart resolved seen).1) := by
  unfold renderLine
  split
  · exact ⟨trivial, rfl⟩
  · split
    · exact ⟨trivial, rfl⟩
    · simp only [lineMarks, marksPairs_append]
      have hgap : ∀ (cnd : Prop) [Decidable cnd] (t : List Char),
          marksPairs (if cnd then [Part.plain t] else []) = [] := by
        intro cnd _ t
        split <;> simp [marksPairs]
      rw [hgap, List.append_nil]
      exact buildPartsAux_anchors line lineStart _ 0 seen

theorem renderLinesAux_anchors :
    ∀ (lines : List (List Char)) (curIdx : Nat) (resolved : List Resolved)
      (seen : List String),
      anchorsOk seen (flattenMarks (renderLinesAux lines curIdx resolved seen)) := by
  intro lines
  induction lines with
  | nil => intro curIdx resolved seen; trivial
  | cons line rest ih =>
    intro curIdx resolved seen
    simp only [renderLinesAux, flattenMarks, List.map_cons, List.flatten_cons]
    rw [anchorsOk_append]
    refine ⟨(renderLine_anchors line curIdx resolved seen).1, ?_⟩
    rw [← (renderLine_anchors line curIdx resolved seen).2]
    exact ih _ _ _

theorem contains_of_foldSeen_step (s : List String) (i j : String) (a : Bool)
    (h : s.contains i = true) : (if a then j :: s else s).contains i = true := by
  split
  · simp only [List.contains_cons, h, Bool.or_true]
  · exact h

theorem anchorsOk_contains_false :
    ∀ (ms : List (String × Bool)) (s : List String) (i : String),
      anchorsOk s ms → s.contains i = true →
      ∀ m ∈ ms.filter (fun x => x.1 == i), m.2 = false := by
  intro ms
  induction ms with
  | nil => intro s i _ _ m hm; simp at hm
  | cons x rest ih =>
    intro s i hok hc m hm
    obtain ⟨j, a⟩ := x
    obtain ⟨ha, hok'⟩ := hok
    rw [List.filter_cons] at hm
    by_cases hji : ((j, a).1 == i) = true
    · rw [if_pos hji] at hm
      rcases List.mem_cons.mp hm with rfl | hm'
      · have hj : j = i := by simpa using hji
        subst hj
        simp only [hc, Bool.not_true] at ha
        exact ha
      · exact ih _ i hok' (contains_of_foldSeen_step s i j a hc) m hm'
    · rw [if_neg hji] at hm
      exact ih _ i hok' (contains_of_foldSeen_step s i j a hc) m hm

theorem map_snd_all_false {l : List (String × Bool)}
    (h : ∀ m ∈ l, Prod.snd m = false) :
    l.map Prod.snd = List.replicate l.length false := by
  induction l with
  | nil => rfl
  | cons x rest ih =>
    simp only [List.map_cons, List.length_cons, List.replicate_succ]
    rw [h x (by simp), ih (fun m hm => h m (by simp [hm]))]

theorem anchorsOk_fresh_pattern :
    ∀ (ms : List (String × Bool)) (s : List String) (i : String),
      anchorsOk s ms → s.contains i = false →
      (ms.filter (fun x => x.1 == i)).map Prod.snd =
        (if (ms.filter (fun x => x.1 == i)) = [] then []
         else true :: List.replicate ((ms.filter (fun x => x.1 == i)).length - 1) false) := by
  intro ms
  induction ms with
  | nil => intro s i _ _; simp
  | cons x rest ih =>
    intro s i hok hc
    obtain ⟨j, a⟩ := x
    obtain ⟨ha, hok'⟩ := hok
    rw [List.filter_cons]
    by_cases hji : ((j, a).1 == i) = true
    · rw [if_pos hji]
      have hj : j = i := by simpa using hji
      subst hj
      rw [hc, Bool.not_false] at ha
      subst ha
      have hcontains : (j :: s).contains j = true := by
        simp [List.contains_cons]
      have hfalse := anchorsOk_contains_false rest (j :: s) j (by simpa using hok') hcontains
      simp only [List.map_cons, List.length_cons]
      rw [map_snd_all_false hfalse]
      simp
    · rw [if_neg hji]
      have hne : (i == j) = false := by
        have hji' : ((j, a).1 == i) = false := Bool.eq_false_iff.mpr hji
        have hne' : j ≠ i := by simpa using hji'
        simpa [beq_eq_false_iff_ne] using Ne.symm hne'
      have hc' : (if a then j :: s else s).contains i = false := by
        split
        · rw [List.contains_cons, hne, hc]
          rfl
        · exact hc
      exact ih _ i hok' hc'

/-- Does a rendered line contain a mark span of this highlight id carrying
the scroll-anchor element id? -/
def lineHasAnchoredMark (lo : LineOut) (id : String) : Bool :=
  match lo with
  | LineOut.lineBreak => false
  | LineOut.para ps => ps.any (fun p =>
      match p with
      | Part.mark i a _ => i == id && a
      | Part.plain _ => false)

/-- Indices (from `k`) of the rendered lines holding an anchored mark of
this id. -/
def anchoredLineIdxsAux : List LineOut → Nat → String → List Nat
  | [], _, _ => []
  | lo :: rest, k, id =>
    (if lineHasAnchoredMark lo id then [k] else []) ++ anchoredLineIdxsAux rest (k + 1) id

/-- The interval-overlap test of the compositor, as a predicate on a
resolved highlight and a line range. -/
def intersectsLine (r : Resolved) (a b : Nat) : Bool :=
  decide (r.localIndex < b) && decide (a < r.localIndex + r.len)

/-- Index of the first line (in document order) whose range intersects
some resolved highlight with the given id. -/
def firstIntersectAux (rs : List Resolved) (id : String) :
    List (List Char) → Nat → Nat → Option Nat
  | [], _, _ => none
  | line :: rest, k, off =>
    if rs.any (fun r => r.id == id && intersectsLine r off (off + line.length)) then some k
    else firstIntersectAux rs id rest (k + 1) (off + line.length + 1)

/-- The property asserted by claim C8: every line holding an anchored mark
of an id is the first line whose range intersects that id's resolved
highlights. -/
def claim8Property (content : List Char) (highlights : List Highlight)
    (pageText : List Char) (psi : Nat) (id : String) : Prop :=
  ∀ k ∈ anchoredLineIdxsAux (renderPageContent content highlights pageText psi) 0 id,
    firstIntersectAux (sortResolved (resolveHighlights content highlights psi pageText.length))
      id (splitNl pageText) 0 0 = some k

/-- **C8 (counterexample).** With content `"a\n \nx"` and one highlight
whose snippet `" \nx"` resolves to `[2, 5)`, the first intersecting line is
the blank line at index 1, which renders as a bare `<br/>` carrying no
span; the anchored span is emitted on line 2 instead, so the anchor is not
on the first intersecting line in document order. -/
theorem claim8_counterexample :
    ¬ claim8Property "a\n \nx".toList [⟨"h1", " \nx".toList⟩] "a\n \nx\n".toList 0 "h1" := by
  intro hP
  have h2 := hP 2 (by decide)
  have : firstIntersectAux
      (sortResolved (resolveHighlights "a\n \nx".toList [⟨"h1", " \nx".toList⟩] 0
        "a\n \nx\n".toList.length))
      "h1" (splitNl "a\n \nx\n".toList) 0 0 = some 1 := by decide
  rw [this] at h2
  cases h2

/-- **C8 (amended).** For every page composition and highlight id, the
anchored flags of that id's mark spans, in document order, are `true` for
the first span and `false` for every later one (hence at most one span
carries the scroll-anchor identifier, and it is the first rendered
occurrence; blank intersecting lines render no spans, so this may be later
than the first intersecting line). -/
theorem claim8_anchor_unique (content : List Char) (highlights : List Highlight)
    (pageText : List Char) (psi : Nat) (id : String) :
    ((flattenMarks (renderPageContent content highlights pageText psi)).filter
        (fun m => m.1 == id)).map Prod.snd =
      (if ((flattenMarks (renderPageContent content highlights pageText psi)).filter
          (fun m => m.1 == id)) = [] then []
       else true :: List.replicate
        (((flattenMarks (renderPageContent content highlights pageText psi)).filter
          (fun m => m.1 == id)).length - 1) false) := by
  have hok : anchorsOk []
      (flattenMarks (renderPageContent content highlights pageText psi)) :=
    renderLinesAux_anchors (splitNl pageText) 0
      (sortResolved (resolveHighlights content highlights psi pageText.length)) []
  exact anchorsOk_fresh_pattern _ [] id hok rfl

/-! ### C3: line partition with overlapping highlights -/

theorem partsText_append (a b : List Part) :
    partsText (a ++ b) = partsText a ++ partsText b := by
  induction a with
  | nil => simp [partsText]
  | cons p ps ih =>
    cases p <;> simp [partsText, ih]

theorem marksTexts_append (a b : List Part) :
    marksTexts (a ++ b) = marksTexts a ++ marksTexts b := by
  induction a with
  | nil => simp [marksTexts]
  | cons p ps ih =>
    cases p <;> simp [marksTexts, ih]

theorem buildPartsAux_texts (line : List Char) (lineStart : Nat) :
    ∀ (rel : List Resolved) (cursor : Nat) (seen : List String),
      marksTexts (buildPartsAux line lineStart rel cursor seen).1 =
        rel.map (fun h =>
          (h.id, jsSubstring line (max 0 (h.localIndex - lineStart))
            (min line.length (h.localIndex + h.len - lineStart)))) := by
  intro rel
  induction rel with
  | nil => intro cursor seen; simp [buildPartsAux, marksTexts]
  | cons h rest ih =>
    intro cursor seen
    unfold buildPartsAux
    simp only [marksTexts_append, List.map_cons]
    split
    · simp [marksTexts, ih]
    · simp [marksTexts, ih]

theorem sliceDecomp (l : List Char) (a b : Nat) (hab : a ≤ b) :
    (l.drop a).take (b - a) ++ l.drop b = l.drop a := by
  have h1 : (l.drop a).drop (b - a) = l.drop b := by
    rw [List.drop_drop]
    congr 1
    omega
  conv_rhs => rw [← List.take_append_drop (b - a) (l.drop a)]
  rw [h1]

theorem countSliceLe (l : List Char) (a cursor b : Nat) (c : Char) (h : a ≤ cursor) :
    ((l.drop cursor).take (b - cursor)).count c ≤ ((l.drop a).take (b - a)).count c := by
  have heq : ((l.drop a).take (b - a)).drop (cursor - a) = (l.drop cursor).take (b - cursor) := by
    rw [List.drop_take, List.drop_drop]
    have e1 : a + (cursor - a) = cursor := by omega
    have e2 : b - a - (cursor - a) = b - cursor := by omega
    rw [e1, e2]
  rw [← heq]
  exact (List.drop_sublist _ _).count_le c

theorem jsSubstring_to_end (l : List Char) (x : Nat) :
    jsSubstring l x l.length = l.drop x := by
  rcases Nat.le_total x l.length with hx | hx
  · rw [jsSubstring_eq_of_le l x l.length hx]
    exact List.take_of_length_le (le_of_eq (List.length_drop ..))
  · unfold jsSubstring
    rw [Nat.min_eq_right hx, Nat.min_self, Nat.min_self, Nat.max_self, Nat.sub_self,
      List.take_zero, List.drop_eq_nil_of_le hx]

theorem buildPartsAux_covers (line : List Char) (lineStart : Nat) :
    ∀ (rel : List Resolved) (cursor : Nat) (seen : List String),
      (∀ h ∈ rel, h.localIndex < lineStart + line.length ∧ lineStart < h.localIndex + h.len) →
      ∀ c : Char,
        (line.drop cursor).count c ≤
          (partsText (buildPartsAux line lineStart rel cursor seen).1 ++
            line.drop (buildPartsAux line lineStart rel cursor seen).2.1).count c := by
  intro rel
  induction rel with
  | nil =>
    intro cursor seen _ c
    simp [buildPartsAux, partsText]
  | cons h rest ih =>
    intro cursor seen hall c
    obtain ⟨hi1, hi2⟩ := hall h (by simp)
    have hallrest : ∀ h' ∈ rest,
        h'.localIndex < lineStart + line.length ∧ lineStart < h'.localIndex + h'.len :=
      fun h' hh => hall h' (by simp [hh])
    unfold buildPartsAux
    have hA : max 0 (h.localIndex - lineStart) = h.localIndex - lineStart :=
      Nat.max_eq_right (Nat.zero_le _)
    rw [hA]
    have hAB : h.localIndex - lineStart ≤
        min line.length (h.localIndex + h.len - lineStart) := by
      refine Nat.le_min.mpr ⟨by omega, by omega⟩
    have hBL : min line.length (h.localIndex + h.len - lineStart) ≤ line.length :=
      Nat.min_le_left _ _
    have hmark : jsSubstring line (h.localIndex - lineStart)
        (min line.length (h.localIndex + h.len - lineStart)) =
        (line.drop (h.localIndex - lineStart)).take
          (min line.length (h.localIndex + h.len - lineStart) - (h.localIndex - lineStart)) :=
      jsSubstring_eq_of_le _ _ _ hAB
    have hih := ih (min line.length (h.localIndex + h.len - lineStart))
      (if !(seen.contains h.id) then h.id :: seen else seen) hallrest c
    by_cases hcur : cursor < h.localIndex - lineStart
    · rw [if_pos hcur]
      simp only [partsText_append, partsText, List.count_append]
      rw [jsSubstring_eq_of_le _ _ _ (le_of_lt hcur), hmark]
      have hd1 : (line.drop cursor).count c =
          ((line.drop cursor).take ((h.localIndex - lineStart) - cursor)).count c +
            (line.drop (h.localIndex - lineStart)).count c := by
        conv_lhs => rw [← sliceDecomp line cursor (h.localIndex - lineStart) (le_of_lt hcur)]
        rw [List.count_append]
      have hd2 : (line.drop (h.localIndex - lineStart)).count c =
          ((line.drop (h.localIndex - lineStart)).take
            (min line.length (h.localIndex + h.len - lineStart) - (h.localIndex - lineStart))).count c +
            (line.drop (min line.length (h.localIndex + h.len - lineStart))).count c := by
        conv_lhs => rw [← sliceDecomp line (h.localIndex - lineStart)
          (min line.length (h.localIndex + h.len - lineStart)) hAB]
        rw [List.count_append]
      simp only [List.count_append] at hih
      omega
    · rw [if_neg hcur]
      simp only [partsText_append, partsText, List.count_append, List.nil_append]
      rw [hmark]
      simp only [List.count_append] at hih
      by_cases hcb : cursor ≤ min line.length (h.localIndex + h.len - lineStart)
      · have hd1 : (line.drop cursor).count c =
            ((line.drop cursor).take
              (min line.length (h.localIndex + h.len - lineStart) - cursor)).count c +
              (line.drop (min line.length (h.localIndex + h.len - lineStart))).count c := by
          conv_lhs => rw [← sliceDecomp line cursor
            (min line.length (h.localIndex + h.len - lineStart)) hcb]
          rw [List.count_append]
        have hsub := countSliceLe line (h.localIndex - lineStart) cursor
          (min line.length (h.localIndex + h.len - lineStart)) c (by omega)
        omega
      · have hsuffix : (line.drop cursor).count c ≤
            (line.drop (min line.length (h.localIndex + h.len - lineStart))).count c := by
          have : line.drop cursor =
              (line.drop (min line.length (h.localIndex + h.len - lineStart))).drop
                (cursor - min line.length (h.localIndex + h.len - lineStart)) := by
            rw [List.drop_drop]
            congr 1
            omega
          rw [this]
          exact (List.drop_sublist _ _).count_le c
        omega

/-- **C3 (counterexample).** Two overlapping highlights (`"abcd"` at
`[0,4)` and `"cdef"` at `[2,6)` on the single line `"abcdef"`) both render
clipped to the line, but the characters of the overlap are emitted by
both spans: `'c'` occurs twice in the concatenated output and only once in
the line, so the concatenation does not contain each character exactly
once. -/
theorem claim3_counterexample :
    (renderPageContent "abcdef".toList [⟨"h1", "abcd".toList⟩, ⟨"h2", "cdef".toList⟩]
        "abcdef\n".toList 0).get? 0 =
      some (LineOut.para
        [Part.mark "h1" true "abcd".toList, Part.mark "h2" true "cdef".toList]) ∧
    (partsText [Part.mark "h1" true "abcd".toList, Part.mark "h2" true "cdef".toList]).count 'c'
      = 2 ∧
    ("abcdef".toList).count 'c' = 1 := by
  decide

/-- **C3 (amended).** For every line holding at least one intersecting
highlight, the compositor renders every intersecting highlight (overlaps
included) as a mark span clipped to its own range within the line, and the
concatenation of the emitted plain gaps and highlight spans contains every
character of the line at least once — no character is dropped, but
characters inside overlapping ranges are emitted once per covering span
rather than exactly once. -/
theorem claim3_overlap_renders_all (line : List Char) (lineStart : Nat)
    (resolved : List Resolved) (seen : List String)
    (hblank : ¬ trimJs line = [])
    (hrel : ¬ (resolved.filter (fun h =>
        decide (h.localIndex < lineStart + line.length) &&
        decide (lineStart < h.localIndex + h.len))) = []) :
    ∃ parts,
      (renderLine line lineStart resolved seen).1 = LineOut.para parts ∧
      marksTexts parts = (resolved.filter (fun h =>
          decide (h.localIndex < lineStart + line.length) &&
          decide (lineStart < h.localIndex + h.len))).map (fun h =>
        (h.id, jsSubstring line (max 0 (h.localIndex - lineStart))
          (min line.length (h.localIndex + h.len - lineStart)))) ∧
      ∀ c : Char, line.count c ≤ (partsText parts).count c := by
  refine ⟨(buildPartsAux line lineStart (resolved.filter (fun h =>
      decide (h.localIndex < lineStart + line.length) &&
      decide (lineStart < h.localIndex + h.len))) 0 seen).1 ++
    (if (buildPartsAux line lineStart (resolved.filter (fun h =>
        decide (h.localIndex < lineStart + line.length) &&
        decide (lineStart < h.localIndex + h.len))) 0 seen).2.1 < line.length then
      [Part.plain (jsSubstring line
        ((buildPartsAux line lineStart (resolved.filter (fun h =>
          decide (h.localIndex < lineStart + line.length) &&
          decide (lineStart < h.localIndex + h.len))) 0 seen).2.1) line.length)]
    else []), ?_, ?_, ?_⟩
  · unfold renderLine
    rw [if_neg hblank, if_neg hrel]
  · rw [marksTexts_append, buildPartsAux_texts]
    have : marksTexts (if (buildPartsAux line lineStart (resolved.filter (fun h =>
        decide (h.localIndex < lineStart + line.length) &&
        decide (lineStart < h.localIndex + h.len))) 0 seen).2.1 < line.length then
      [Part.plain (jsSubstring line
        ((buildPartsAux line lineStart (resolved.filter (fun h =>
          decide (h.localIndex < lineStart + line.length) &&
          decide (lineStart < h.localIndex + h.len))) 0 seen).2.1) line.length)]
    else []) = [] := by
      split <;> simp [marksTexts]
    rw [this, List.append_nil]
  · intro c
    have hall : ∀ h ∈ resolved.filter (fun h =>
        decide (h.localIndex < lineStart + line.length) &&
        decide (lineStart < h.localIndex + h.len)),
        h.localIndex < lineStart + line.length ∧ lineStart < h.localIndex + h.len := by
      intro h hh
      have := List.of_mem_filter hh
      simp only [Bool.and_eq_true, decide_eq_true_eq] at this
      exact this
    have hcov := buildPartsAux_covers line lineStart _ 0 seen hall c
    simp only [List.drop_zero] at hcov
    rw [partsText_append]
    have hgap : partsText (if (buildPartsAux line lineStart (resolved.filter (fun h =>
        decide (h.localIndex < lineStart + line.length) &&
        decide (lineStart < h.localIndex + h.len))) 0 seen).2.1 < line.length then
      [Part.plain (jsSubstring line
        ((buildPartsAux line lineStart (resolved.filter (fun h =>
          decide (h.localIndex < lineStart + line.length) &&
          decide (lineStart < h.localIndex + h.len))) 0 seen).2.1) line.length)]
    else []) = line.drop ((buildPartsAux line lineStart (resolved.filter (fun h =>
        decide (h.localIndex < lineStart + line.length) &&
        decide (lineStart < h.localIndex + h.len))) 0 seen).2.1) := by
      split
      · simp [partsText, jsSubstring_to_end]
      · rename_i hge
        rw [List.drop_eq_nil_of_le (by omega)]
        rfl
    rw [hgap]
    exact hcov

theorem claim3_witness :
    ((¬ trimJs "abcdef".toList = []) ∧
      ¬ (([⟨"h1", 0, 4⟩, ⟨"h2", 2, 4⟩] : List Resolved).filter (fun h =>
        decide (h.localIndex < 0 + "abcdef".toList.length) &&
        decide (0 < h.localIndex + h.len))) = []) ∧
    ∃ parts,
      (renderLine "abcdef".toList 0 [⟨"h1", 0, 4⟩, ⟨"h2", 2, 4⟩] []).1 = LineOut.para parts ∧
      marksTexts parts = (([⟨"h1", 0, 4⟩, ⟨"h2", 2, 4⟩] : List Resolved).filter (fun h =>
          decide (h.localIndex < 0 + "abcdef".toList.length) &&
          decide (0 < h.localIndex + h.len))).map (fun h =>
        (h.id, jsSubstring "abcdef".toList (max 0 (h.localIndex - 0))
          (min "abcdef".toList.length (h.localIndex + h.len - 0)))) ∧
      ∀ c : Char, ("abcdef".toList).count c ≤ (partsText parts).count c :=
  ⟨⟨by decide, by decide⟩,
   claim3_overlap_renders_all "abcdef".toList 0 [⟨"h1", 0, 4⟩, ⟨"h2", 2, 4⟩] []
     (by decide) (by decide)⟩

end Clarity
